import Mathlib

/-
Shallow embedding of src/torrent_finder_by_hash.py.

The script wraps libtorrent: it validates hex info-hashes
(hex_to_sha1_hash, lines 10-13), runs a sequential DHT scan with a
30-second one-poll-per-second loop per hash (scan_dht_for_info_hashes,
lines 16-63), and a CLI entry point that writes the JSON result document
(main, lines 66-91).

Modelling decisions, each noted again at the definition it concerns:
  * External effects (libtorrent session calls, prints, sleeps, file
    writes) are recorded as an explicit event trace.
  * Time is discrete: the per-hash poll loop sleeps 1 second per
    iteration, so each poll iteration advances the clock by one step and
    the 30-second window is exactly 30 poll iterations.
  * The alerts popped from the session and the arrival time of a
    KeyboardInterrupt are inputs (the Env structure), since they come
    from the network / the user.
  * A Python set of (ip, port) peers is modelled as a duplicate-free
    list in insertion order.  CPython leaves set iteration order
    unspecified (it varies with the per-process hash seed); insertion
    order is one concrete resolution of that nondeterminism, and where a
    claim depends on the order (claim C3) we show the output is not a
    function of the set contents alone.
-/

namespace TorrentFinder

/-- Value of one hex digit as accepted by Python bytes.fromhex:
0-9, a-f and A-F.  (bytes.fromhex additionally skips ASCII blanks;
no claim involves blanks, so that case is not modelled.) -/
def hexDigit? (c : Char) : Option Nat :=
  if '0' ≤ c ∧ c ≤ '9' then some (c.toNat - '0'.toNat)
  else if 'a' ≤ c ∧ c ≤ 'f' then some (c.toNat - 'a'.toNat + 10)
  else if 'A' ≤ c ∧ c ≤ 'F' then some (c.toNat - 'A'.toNat + 10)
  else none

/-- Failure modes of hex_to_sha1_hash: bytes.fromhex raises ValueError on a
non-hex character or an odd digit count, and lt.sha1_hash rejects byte
strings whose length is not 20. -/
inductive HashErr
  | nonHex
  | oddLength
  | badLength
deriving DecidableEq

/-- Core of bytes.fromhex: consume the characters two at a time, each pair
becoming one byte value. -/
def fromhexAux : List Char → Except HashErr (List Nat)
  | [] => Except.ok []
  | [c] =>
    if (hexDigit? c).isSome then Except.error HashErr.oddLength
    else Except.error HashErr.nonHex
  | c1 :: c2 :: rest =>
    match hexDigit? c1, hexDigit? c2 with
    | some hi, some lo =>
      match fromhexAux rest with
      | Except.ok bs => Except.ok ((16 * hi + lo) :: bs)
      | Except.error e => Except.error e
    | _, _ => Except.error HashErr.nonHex

/-- Python bytes.fromhex on a string. -/
def fromhex (s : String) : Except HashErr (List Nat) :=
  fromhexAux s.data

/-- Embedding of hex_to_sha1_hash (lines 10-13): bytes.fromhex followed by
the lt.sha1_hash constructor, which requires exactly 20 bytes.  The
sha1_hash object is represented by its byte list. -/
def hex_to_sha1_hash (s : String) : Except HashErr (List Nat) :=
  match fromhex s with
  | Except.ok bs =>
    if bs.length = 20 then Except.ok bs else Except.error HashErr.badLength
  | Except.error e => Except.error e

/-- Lowercase hex digit for a value below 16. -/
def hexChar (n : Nat) : Char :=
  List.getD ("0123456789abcdef".data) n '0'

/-- Two lowercase hex digits of one byte value. -/
def encodeByte (b : Nat) : List Char :=
  [hexChar (b / 16), hexChar (b % 16)]

/-- Hex characters of a byte list. -/
def encodePairs (bs : List Nat) : List Char :=
  bs.foldr (fun b acc => encodeByte b ++ acc) []

/-- Modelled from the spec: the re-encoding direction of the identifier
round-trip property.  The script itself never re-encodes a hash to hex;
this is standard lowercase hex encoding, as produced by Python
bytes.hex(). -/
def toHexStr (bs : List Nat) : String :=
  String.mk (encodePairs bs)

/-- The sixteen lowercase hex digits. -/
def lowHexChars : List Char := "0123456789abcdef".data

/-- Peer endpoint as reported in a dht_get_peers_reply_alert: the Python
tuple (ip string, port). -/
structure Peer where
  ip : String
  port : Nat
deriving DecidableEq

/-- Alert popped from the libtorrent session (line 46): either a
dht_get_peers_reply_alert carrying a peer list, or any other alert kind,
which line 48 skips. -/
inductive Alert
  | dhtGetPeersReply (peers : List Peer)
  | otherAlert
deriving DecidableEq

/-- Inputs of one scan run that come from outside the script: the alerts
each ses.pop_alerts() call returns (indexed by a global poll counter, one
poll per second of scanning), and the poll iteration at whose start a
KeyboardInterrupt strikes, if any. -/
structure Env where
  popAlerts : Nat → List Alert
  interruptAt : Option Nat

/-- Observable actions of scan_dht_for_info_hashes, in program order. -/
inductive Event
  | sessionSetup
  | addRouter (host : String) (port : Nat)
  | printMsg (s : String)
  | sleepSeconds (n : Nat)
  | dhtGetPeersQuery (hexHash : String)
  | printFoundPeer (p : Peer) (hexHash : String)
  | hashValidationError (hexHash : String)
  | keyboardInterrupt
deriving DecidableEq

/-- Lines 50-53 for one alert: add each reported peer to the peer set
unless already present, printing each newly found peer.  The Python set is
modelled as a duplicate-free list in insertion order. -/
def addPeersFromAlert (h : String) (st : List Peer × List Event) (a : Alert) :
    List Peer × List Event :=
  match a with
  | Alert.otherAlert => st
  | Alert.dhtGetPeersReply ps =>
    ps.foldl
      (fun st p =>
        if p ∈ st.1 then st
        else (st.1 ++ [p], st.2 ++ [Event.printFoundPeer p h]))
      st

/-- Peer-set effect of one alert, without the event bookkeeping. -/
def addPeersPure (peers : List Peer) : Alert → List Peer
  | Alert.otherAlert => peers
  | Alert.dhtGetPeersReply ps =>
    ps.foldl (fun acc p => if p ∈ acc then acc else acc ++ [p]) peers

/-- State after the poll loop of one hash. -/
structure PollResult where
  peers : List Peer
  step : Nat
  evs : List Event
  interrupted : Bool

/-- The while loop of lines 45-55: while less than 30 seconds have
elapsed, pop the session alerts, fold the peers of every
dht_get_peers_reply_alert into the peer set, and sleep one second.  Each
iteration advances the global poll counter (one step per second); fuel is
the number of remaining iterations.  A KeyboardInterrupt scheduled at the
current step aborts the loop. -/
def pollLoop (env : Env) (h : String) :
    Nat → Nat → List Peer → List Event → PollResult
  | 0, step, peers, evs => ⟨peers, step, evs, false⟩
  | n + 1, step, peers, evs =>
    if env.interruptAt = some step then
      ⟨peers, step, evs ++ [Event.keyboardInterrupt], true⟩
    else
      let st := (env.popAlerts step).foldl (addPeersFromAlert h) (peers, evs)
      pollLoop env h n (step + 1) st.1 st.2

/-- Peer component of the poll loop, stated directly. -/
def pollPeers (env : Env) : Nat → Nat → List Peer → List Peer
  | 0, _, peers => peers
  | n + 1, step, peers =>
    if env.interruptAt = some step then peers
    else pollPeers env n (step + 1) ((env.popAlerts step).foldl addPeersPure peers)

/-- The 30-second per-hash scan window of line 45, counted in poll
iterations of one second each. -/
def scanBudget : Nat := 30

/-- The one-second sleep of line 55, which is the granularity by which the
loop can overshoot its deadline. -/
def pollSleepSeconds : Nat := 1

/-- Values of the result dictionary (line 33 and line 57): the
date_crawling timestamp string, or a per-hash peer list.  The source
stores each peer formatted as an ip:port string at line 57; the model
keeps the peers and applies the same per-element formatting during JSON
serialization, which composes to the same document. -/
inductive DocVal
  | tsStr (s : String)
  | peerList (ps : List Peer)
deriving DecidableEq

/-- Python dict assignment d[k] = v on an insertion-ordered association
list: overwrite in place when the key exists, else append. -/
def dictSet : List (String × DocVal) → String → DocVal → List (String × DocVal)
  | [], k, v => [(k, v)]
  | (k', v') :: rest, k, v =>
    if k' = k then (k, v) :: rest else (k', v') :: dictSet rest k v

/-- Python dict lookup d[k] on the association list. -/
def lookupDoc : List (String × DocVal) → String → Option DocVal
  | [], _ => none
  | (k', v) :: rest, k => if k' = k then some v else lookupDoc rest k

/-- Keys of the result dictionary, in insertion order. -/
def keysOf (r : List (String × DocVal)) : List String :=
  r.map Prod.fst

/-- Error carried by the ValueError that hex_to_sha1_hash raises through
scan_dht_for_info_hashes (the except clause at line 60 only catches
KeyboardInterrupt, so the exception aborts the whole scan). -/
inductive ScanErr
  | invalidHash (h : String) (e : HashErr)
deriving DecidableEq

/-- Running state of the per-hash for loop of lines 37-58. -/
structure ScanState where
  results : List (String × DocVal)
  step : Nat
  evs : List Event

/-- The for loop of lines 37-58 plus the except clause of lines 60-61.
For each hash: validate it (line 38; a ValueError propagates, recorded as
an error verdict), issue dht_get_peers (line 39), print the scanning
banner (line 41), run the 30-iteration poll loop (lines 43-55), then
store the deduplicated peers under the hash key (line 57) and print the
completion banner (line 58).  A KeyboardInterrupt inside the poll loop
jumps to line 61: the scan prints a stop banner and returns the results
accumulated so far, without an entry for the interrupted hash.  The
returned Bool records whether the loop was interrupted. -/
def scanLoop (env : Env) : List String → ScanState → ScanState × Except ScanErr Bool
  | [], st => (st, Except.ok false)
  | h :: rest, st =>
    match hex_to_sha1_hash h with
    | Except.error e =>
      ({ st with evs := st.evs ++ [Event.hashValidationError h] },
        Except.error (ScanErr.invalidHash h e))
    | Except.ok _ =>
      let r := pollLoop env h scanBudget st.step []
        (st.evs ++ [Event.dhtGetPeersQuery h,
          Event.printMsg ("Scanning for hash: " ++ h ++ "...")])
      if r.interrupted then
        ({ results := st.results, step := r.step,
           evs := r.evs ++ [Event.printMsg "Scan stopped."] }, Except.ok true)
      else
        scanLoop env rest
          { results := dictSet st.results h (DocVal.peerList r.peers),
            step := r.step,
            evs := r.evs ++ [Event.printMsg ("Finished scanning for hash: " ++ h
              ++ ". Found " ++ toString r.peers.length ++ " peers.")] }

/-- Embedding of scan_dht_for_info_hashes (lines 16-63).  The session is
created with fixed settings and three DHT routers (lines 25-28), the
script waits 10 seconds for the DHT to load (lines 30-31), initializes
the result dictionary with the date_crawling timestamp (line 33), and
runs the per-hash loop.  Returns the event trace, the number of poll
iterations performed (each one second), and either the result dictionary
or the propagated ValueError.  The timestamp string is an input, standing
for datetime.now().isoformat(). -/
def scan_dht_for_info_hashes (env : Env) (dateCrawling : String)
    (torrent_hashes : List String) :
    List Event × Nat × Except ScanErr (List (String × DocVal)) :=
  let evs0 : List Event :=
    [Event.sessionSetup,
     Event.addRouter "router.bittorrent.com" 6881,
     Event.addRouter "dht.transmissionbt.com" 6881,
     Event.addRouter "router.utorrent.com" 6881,
     Event.printMsg "Waiting for DHT to load...",
     Event.sleepSeconds 10,
     Event.printMsg "Starting DHT scan..."]
  let st0 : ScanState :=
    { results := [("date_crawling", DocVal.tsStr dateCrawling)],
      step := 0, evs := evs0 }
  match scanLoop env torrent_hashes st0 with
  | (st, Except.error e) => (st.evs, st.step, Except.error e)
  | (st, Except.ok _) => (st.evs, st.step, Except.ok st.results)

/-- Peers accumulated over one full 30-iteration window starting at the
given poll step. -/
def windowPeers (env : Env) (start : Nat) : List Peer :=
  pollPeers env scanBudget start []

/-- The sequence of dictionary writes a run over the given hashes
performs: hash i is written with the peers of the window starting at poll
step start + 30 * i. -/
def hashWrites (env : Env) : Nat → List String → List (String × List Peer)
  | _, [] => []
  | step, h :: rest =>
    (h, windowPeers env step) :: hashWrites env (step + scanBudget) rest

/-- One dictionary write. -/
def writeDoc (r : List (String × DocVal)) (w : String × List Peer) :
    List (String × DocVal) :=
  dictSet r w.1 (DocVal.peerList w.2)

/-- Hashes for which a dht_get_peers query appears in the trace, in query
order. -/
def queriesOf (evs : List Event) : List String :=
  evs.filterMap (fun e =>
    match e with
    | Event.dhtGetPeersQuery h => some h
    | _ => none)

/-- The ip:port formatting of line 57. -/
def fmtPeer (p : Peer) : String :=
  p.ip ++ ":" ++ toString p.port

/-- A JSON string literal.  The strings the script emits (ISO timestamps,
hex hashes, ip:port pairs) contain no character that json.dump would
escape, so plain quoting reproduces its output on this document. -/
def jsonStr (s : String) : String :=
  "\"" ++ s ++ "\""

/-- A JSON array of ip:port strings as json.dump renders it with
indent=4 inside a top-level object: items on their own lines at 8
spaces, the closing bracket at 4; the empty array stays on one line. -/
def jsonPeerArray : List Peer → String
  | [] => "[]"
  | ps =>
    "[\n"
      ++ String.intercalate ",\n"
        (ps.map (fun p => "        " ++ jsonStr (fmtPeer p)))
      ++ "\n    ]"

/-- A JSON value of the result document. -/
def jsonVal : DocVal → String
  | DocVal.tsStr s => jsonStr s
  | DocVal.peerList ps => jsonPeerArray ps

/-- The bytes json.dump(results, res_file, indent=4) writes at lines
88-89, for this document shape. -/
def jsonDoc (doc : List (String × DocVal)) : String :=
  "\x7b\n"
    ++ String.intercalate ",\n"
      (doc.map (fun kv => "    " ++ jsonStr kv.1 ++ ": " ++ jsonVal kv.2))
    ++ "\n\x7d"

/-- Observable actions of the CLI entry point. -/
inductive MainEvent
  | printMsg (s : String)
  | writeFile (path : String) (contents : String)
deriving DecidableEq

/-- Parsed command-line flags before argparse defaulting: none means the
flag was absent; --output has default "output.json", applied by
parsedOutput below. -/
structure Args where
  hash : Option String
  hashFile : Option String
  output : Option String

/-- Value of args.output after argparse: the default "output.json" when
the flag is absent, the given string (possibly empty) otherwise. -/
def parsedOutput (a : Args) : String :=
  a.output.getD "output.json"

/-- Python truthiness of an optional string flag: an absent flag and an
empty string are both falsy. -/
def truthy : Option String → Option String
  | some s => if s = "" then none else some s
  | none => none

/-- Python str.isspace blanks relevant to str.strip: space, tab, newline,
carriage return, vertical tab and form feed. -/
def pyIsSpace (c : Char) : Bool :=
  (c = ' ') || (c = '\t') || (c = '\n') || (c = '\r')
    || (c = '\x0b') || (c = '\x0c')

/-- Blanks dropped from the front of a character list. -/
def dropLeadingSpace : List Char → List Char
  | [] => []
  | c :: rest => if pyIsSpace c then dropLeadingSpace rest else c :: rest

/-- Python str.strip applied to each line read from the hash file:
removes leading and trailing blanks. -/
def pyStrip (s : String) : String :=
  String.mk (dropLeadingSpace (dropLeadingSpace s.data.reverse).reverse)

/-- Inputs of a main run that come from outside the script: the lines
f.readlines() yields for each path (file reading itself is an external
collaborator per the spec), the scan environment, and the timestamp. -/
structure MainEnv where
  hashFileLines : String → List String
  scanEnv : Env
  timestamp : String

/-- The hash-list selection of lines 73-80, following Python truthiness:
a truthy --hash wins as a singleton list, else a truthy --hash-file is
read and its lines stripped, else none is selected. -/
def selectedHashes (menv : MainEnv) (a : Args) : Option (List String) :=
  match truthy a.hash with
  | some h => some [h]
  | none =>
    match truthy a.hashFile with
    | some f => some ((menv.hashFileLines f).map pyStrip)
    | none => none

/-- Embedding of main (lines 66-91).  When no hash list is selected an
error message is printed and main returns without writing.  The output
check at line 82 can only fire for an explicit empty --output, since
argparse fills in the default otherwise.  A successful scan is dumped as
JSON to the output path and a confirmation is printed.  A ValueError
escaping the scan crashes main: nothing is written (the scan's own
console output lives in its event trace). -/
def main (menv : MainEnv) (a : Args) : List MainEvent × Except ScanErr Unit :=
  match selectedHashes menv a with
  | none =>
    ([MainEvent.printMsg
        "Error: No hash or hash file provided! Use --hash <hash_str> or --hash-file <filepath>"],
      Except.ok ())
  | some torrentHashes =>
    if parsedOutput a = "" then
      ([MainEvent.printMsg "Error: No output file provided! Use --output <file>.json"],
        Except.ok ())
    else
      match scan_dht_for_info_hashes menv.scanEnv menv.timestamp torrentHashes with
      | (_, _, Except.error e) => ([], Except.error e)
      | (_, _, Except.ok doc) =>
        ([MainEvent.writeFile (parsedOutput a) (jsonDoc doc),
          MainEvent.printMsg ("Results saved to " ++ parsedOutput a ++ ".")],
          Except.ok ())

/-- Boolean success of hash validation. -/
def hashOk (h : String) : Bool :=
  match hex_to_sha1_hash h with
  | Except.ok _ => true
  | Except.error _ => false

theorem queriesOf_append (a b : List Event) :
    queriesOf (a ++ b) = queriesOf a ++ queriesOf b := by
  simp [queriesOf, List.filterMap_append]

theorem dedupFold_fst (h : String) (ps : List Peer) :
    ∀ (p : List Peer) (e : List Event),
      (ps.foldl (fun st q => if q ∈ st.1 then st
          else (st.1 ++ [q], st.2 ++ [Event.printFoundPeer q h])) (p, e)).1
        = ps.foldl (fun acc q => if q ∈ acc then acc else acc ++ [q]) p := by
  induction ps with
  | nil => intro p e; rfl
  | cons q ps ih =>
    intro p e
    by_cases hq : q ∈ p
    · simp only [List.foldl_cons, hq, if_pos]
      exact ih p e
    · simp only [List.foldl_cons, hq, if_neg, not_false_iff]
      exact ih (p ++ [q]) (e ++ [Event.printFoundPeer q h])

theorem dedupFold_snd_queries (h : String) (ps : List Peer) :
    ∀ (p : List Peer) (e : List Event),
      queriesOf (ps.foldl (fun st q => if q ∈ st.1 then st
          else (st.1 ++ [q], st.2 ++ [Event.printFoundPeer q h])) (p, e)).2
        = queriesOf e := by
  induction ps with
  | nil => intro p e; rfl
  | cons q ps ih =>
    intro p e
    by_cases hq : q ∈ p
    · simp only [List.foldl_cons, hq, if_pos]
      exact ih p e
    · simp only [List.foldl_cons, hq, if_neg, not_false_iff]
      rw [ih (p ++ [q]) (e ++ [Event.printFoundPeer q h]), queriesOf_append]
      simp [queriesOf]

theorem addPeersFromAlert_fst (h : String) (p : List Peer) (e : List Event)
    (a : Alert) : (addPeersFromAlert h (p, e) a).1 = addPeersPure p a := by
  cases a with
  | otherAlert => rfl
  | dhtGetPeersReply ps => exact dedupFold_fst h ps p e

theorem addPeersFromAlert_snd_queries (h : String) (p : List Peer)
    (e : List Event) (a : Alert) :
    queriesOf (addPeersFromAlert h (p, e) a).2 = queriesOf e := by
  cases a with
  | otherAlert => rfl
  | dhtGetPeersReply ps => exact dedupFold_snd_queries h ps p e

theorem alertsFold_fst (h : String) (as : List Alert) :
    ∀ (p : List Peer) (e : List Event),
      (as.foldl (addPeersFromAlert h) (p, e)).1 = as.foldl addPeersPure p := by
  induction as with
  | nil => intro p e; rfl
  | cons a as ih =>
    intro p e
    simp only [List.foldl_cons]
    have hstep : as.foldl (addPeersFromAlert h) (addPeersFromAlert h (p, e) a)
        = as.foldl (addPeersFromAlert h)
            ((addPeersFromAlert h (p, e) a).1, (addPeersFromAlert h (p, e) a).2) := rfl
    rw [hstep, ih, addPeersFromAlert_fst]

theorem alertsFold_snd_queries (h : String) (as : List Alert) :
    ∀ (p : List Peer) (e : List Event),
      queriesOf (as.foldl (addPeersFromAlert h) (p, e)).2 = queriesOf e := by
  induction as with
  | nil => intro p e; rfl
  | cons a as ih =>
    intro p e
    simp only [List.foldl_cons]
    have hstep : as.foldl (addPeersFromAlert h) (addPeersFromAlert h (p, e) a)
        = as.foldl (addPeersFromAlert h)
            ((addPeersFromAlert h (p, e) a).1, (addPeersFromAlert h (p, e) a).2) := rfl
    rw [hstep, ih, addPeersFromAlert_snd_queries]

theorem pollLoop_peers (env : Env) (h : String) :
    ∀ (f s : Nat) (p : List Peer) (e : List Event),
      (pollLoop env h f s p e).peers = pollPeers env f s p := by
  intro f
  induction f with
  | zero => intro s p e; rfl
  | succ n ih =>
    intro s p e
    by_cases hs : env.interruptAt = some s
    · simp [pollLoop, pollPeers, hs]
    · simp only [pollLoop, pollPeers, hs, if_neg, not_false_iff]
      rw [ih]
      congr 1
      exact alertsFold_fst h (env.popAlerts s) p e

theorem pollLoop_queries (env : Env) (h : String) :
    ∀ (f s : Nat) (p : List Peer) (e : List Event),
      queriesOf (pollLoop env h f s p e).evs = queriesOf e := by
  intro f
  induction f with
  | zero => intro s p e; rfl
  | succ n ih =>
    intro s p e
    by_cases hs : env.interruptAt = some s
    · simp [pollLoop, hs, queriesOf_append, queriesOf]
    · simp only [pollLoop, hs, if_neg, not_false_iff]
      rw [ih]
      exact alertsFold_snd_queries h (env.popAlerts s) p e

theorem pollLoop_noInterrupt (env : Env) (h : String)
    (hI : env.interruptAt = none) :
    ∀ (f s : Nat) (p : List Peer) (e : List Event),
      (pollLoop env h f s p e).interrupted = false
        ∧ (pollLoop env h f s p e).step = s + f := by
  intro f
  induction f with
  | zero => intro s p e; exact ⟨rfl, rfl⟩
  | succ n ih =>
    intro s p e
    have hs : ¬ env.interruptAt = some s := by rw [hI]; simp
    simp only [pollLoop, hs, if_neg, not_false_iff]
    obtain ⟨h1, h2⟩ := ih (s + 1) _ _
    refine ⟨h1, ?_⟩
    rw [h2]; omega

theorem pollLoop_before (env : Env) (h : String) (t : Nat)
    (hI : env.interruptAt = some t) :
    ∀ (f s : Nat), s + f ≤ t → ∀ (p : List Peer) (e : List Event),
      (pollLoop env h f s p e).interrupted = false
        ∧ (pollLoop env h f s p e).step = s + f := by
  intro f
  induction f with
  | zero => intro s _ p e; exact ⟨rfl, rfl⟩
  | succ n ih =>
    intro s hle p e
    have hs : ¬ env.interruptAt = some s := by
      rw [hI]; intro hc; injection hc with hc; omega
    simp only [pollLoop, hs, if_neg, not_false_iff]
    obtain ⟨h1, h2⟩ := ih (s + 1) (by omega) _ _
    refine ⟨h1, ?_⟩
    rw [h2]; omega

theorem pollLoop_hit (env : Env) (h : String) (t : Nat)
    (hI : env.interruptAt = some t) :
    ∀ (f s : Nat), s ≤ t → t < s + f → ∀ (p : List Peer) (e : List Event),
      (pollLoop env h f s p e).interrupted = true
        ∧ (pollLoop env h f s p e).step = t := by
  intro f
  induction f with
  | zero => intro s hs hlt p e; omega
  | succ n ih =>
    intro s hs hlt p e
    by_cases hst : s = t
    · subst hst
      simp [pollLoop, hI]
    · have hne : ¬ env.interruptAt = some s := by
        rw [hI]; intro hc; injection hc with hc; omega
      simp only [pollLoop, hne, if_neg, not_false_iff]
      exact ih (s + 1) (by omega) (by omega) _ _

/-- An environment in which no get_peers reply ever arrives: every popped
alert is of some other kind. -/
def neverReplies (env : Env) : Prop :=
  ∀ t a, a ∈ env.popAlerts t → a = Alert.otherAlert

theorem alertsFoldPure_quiet (as : List Alert)
    (hq : ∀ a ∈ as, a = Alert.otherAlert) :
    ∀ p : List Peer, as.foldl addPeersPure p = p := by
  induction as with
  | nil => intro p; rfl
  | cons a as ih =>
    intro p
    have ha : a = Alert.otherAlert := hq a (by simp)
    subst ha
    simp only [List.foldl_cons]
    exact ih (fun a h => hq a (by simp [h])) p

theorem pollPeers_quiet (env : Env) (hq : neverReplies env) :
    ∀ (f s : Nat) (p : List Peer), pollPeers env f s p = p := by
  intro f
  induction f with
  | zero => intro s p; rfl
  | succ n ih =>
    intro s p
    by_cases hs : env.interruptAt = some s
    · simp [pollPeers, hs]
    · simp only [pollPeers, hs, if_neg, not_false_iff]
      rw [alertsFoldPure_quiet _ (hq s), ih]

theorem windowPeers_quiet (env : Env) (hq : neverReplies env) (s : Nat) :
    windowPeers env s = [] :=
  pollPeers_quiet env hq scanBudget s []

theorem dedupFoldPure_nodup (ps : List Peer) :
    ∀ p : List Peer, p.Nodup →
      (ps.foldl (fun acc q => if q ∈ acc then acc else acc ++ [q]) p).Nodup := by
  induction ps with
  | nil => intro p hp; exact hp
  | cons q ps ih =>
    intro p hp
    by_cases hq : q ∈ p
    · simp only [List.foldl_cons, hq, if_pos]
      exact ih p hp
    · simp only [List.foldl_cons, hq, if_neg, not_false_iff]
      refine ih (p ++ [q]) ?_
      simp [List.nodup_append, hp, hq]

theorem addPeersPure_nodup (p : List Peer) (a : Alert) (hp : p.Nodup) :
    (addPeersPure p a).Nodup := by
  cases a with
  | otherAlert => exact hp
  | dhtGetPeersReply ps => exact dedupFoldPure_nodup ps p hp

theorem alertsFoldPure_nodup (as : List Alert) :
    ∀ p : List Peer, p.Nodup → (as.foldl addPeersPure p).Nodup := by
  induction as with
  | nil => intro p hp; exact hp
  | cons a as ih =>
    intro p hp
    simp only [List.foldl_cons]
    exact ih _ (addPeersPure_nodup p a hp)

theorem pollPeers_nodup (env : Env) :
    ∀ (f s : Nat) (p : List Peer), p.Nodup → (pollPeers env f s p).Nodup := by
  intro f
  induction f with
  | zero => intro s p hp; exact hp
  | succ n ih =>
    intro s p hp
    by_cases hs : env.interruptAt = some s
    · simp [pollPeers, hs, hp]
    · simp only [pollPeers, hs, if_neg, not_false_iff]
      exact ih (s + 1) _ (alertsFoldPure_nodup _ p hp)

theorem windowPeers_nodup (env : Env) (s : Nat) : (windowPeers env s).Nodup :=
  pollPeers_nodup env scanBudget s [] List.nodup_nil

theorem lookup_dictSet (r : List (String × DocVal)) (k : String) (v : DocVal)
    (k' : String) :
    lookupDoc (dictSet r k v) k' = if k = k' then some v else lookupDoc r k' := by
  induction r with
  | nil =>
    by_cases hk : k = k' <;> simp [dictSet, lookupDoc, hk]
  | cons kv r ih =>
    obtain ⟨k0, v0⟩ := kv
    by_cases h0 : k0 = k
    · subst h0
      by_cases hk : k0 = k' <;> simp [dictSet, lookupDoc, hk]
    · by_cases hk : k0 = k'
      · subst hk
        have : ¬ k = k0 := fun hc => h0 hc.symm
        simp [dictSet, lookupDoc, h0, this]
      · simp [dictSet, lookupDoc, h0, hk, ih]

theorem dictSet_fresh (r : List (String × DocVal)) (k : String) (v : DocVal)
    (hk : k ∉ keysOf r) : dictSet r k v = r ++ [(k, v)] := by
  induction r with
  | nil => rfl
  | cons kv r ih =>
    obtain ⟨k0, v0⟩ := kv
    have h0 : ¬ k0 = k := by
      intro hc; exact hk (by simp [keysOf, hc])
    have hk' : k ∉ keysOf r := by
      intro hc; exact hk (by simp [keysOf] at hc ⊢; exact Or.inr hc)
    simp [dictSet, h0, ih hk']

theorem keysOf_dictSet (r : List (String × DocVal)) (k : String) (v : DocVal) :
    keysOf (dictSet r k v)
      = if k ∈ keysOf r then keysOf r else keysOf r ++ [k] := by
  induction r with
  | nil => simp [dictSet, keysOf]
  | cons kv r ih =>
    obtain ⟨k0, v0⟩ := kv
    by_cases h0 : k0 = k
    · subst h0
      simp [dictSet, keysOf]
    · have hmem : (k ∈ keysOf ((k0, v0) :: r)) ↔ k ∈ keysOf r := by
        constructor
        · intro hc
          rcases List.mem_cons.mp hc with h | h
          · exact absurd h (fun hh => h0 hh.symm)
          · exact h
        · intro hc
          exact List.mem_cons.mpr (Or.inr hc)
      have hstep : keysOf (dictSet ((k0, v0) :: r) k v)
          = k0 :: keysOf (dictSet r k v) := by
        simp [dictSet, h0, keysOf]
      rw [hstep, ih]
      by_cases hk : k ∈ keysOf r
      · rw [if_pos hk, if_pos (hmem.mpr hk)]
        rfl
      · rw [if_neg hk, if_neg (fun hc => hk (hmem.mp hc))]
        rfl

theorem keysNodup_dictSet (r : List (String × DocVal)) (k : String)
    (v : DocVal) (hr : (keysOf r).Nodup) : (keysOf (dictSet r k v)).Nodup := by
  rw [keysOf_dictSet]
  by_cases hk : k ∈ keysOf r
  · simp [hk, hr]
  · simp [hk, List.nodup_append, hr]

theorem lookup_dictSet_preserves (r : List (String × DocVal)) (k k' : String)
    (v v' : DocVal) (hl : lookupDoc r k' = some v') :
    ∃ v'', lookupDoc (dictSet r k v) k' = some v'' := by
  rw [lookup_dictSet]
  by_cases hk : k = k'
  · exact ⟨v, by simp [hk]⟩
  · exact ⟨v', by simp [hk, hl]⟩

/-- Value of the last write with the given key in a write sequence, if
any. -/
def lastWrite (k : String) : List (String × List Peer) → Option (List Peer)
  | [] => none
  | w :: ws =>
    match lastWrite k ws with
    | some v => some v
    | none => if w.1 = k then some w.2 else none

theorem lookup_foldWrites (k : String) (ws : List (String × List Peer)) :
    ∀ r : List (String × DocVal),
      lookupDoc (ws.foldl writeDoc r) k
        = match lastWrite k ws with
          | some v => some (DocVal.peerList v)
          | none => lookupDoc r k := by
  induction ws with
  | nil => intro r; rfl
  | cons w ws ih =>
    intro r
    simp only [List.foldl_cons, lastWrite]
    rw [ih (writeDoc r w)]
    cases hlast : lastWrite k ws with
    | some v => simp
    | none =>
      simp only []
      by_cases hw : w.1 = k
      · simp [hw, writeDoc, lookup_dictSet]
      · simp [hw, writeDoc, lookup_dictSet]

theorem lastWrite_append (k : String) (a b : List (String × List Peer)) :
    lastWrite k (a ++ b)
      = match lastWrite k b with
        | some v => some v
        | none => lastWrite k a := by
  induction a with
  | nil =>
    simp only [List.nil_append]
    cases hb : lastWrite k b <;> simp [hb, lastWrite]
  | cons w a ih =>
    simp only [List.cons_append, lastWrite, List.append_eq, ih]
    cases hb : lastWrite k b <;> cases ha : lastWrite k a <;> simp [hb, ha]

theorem lastWrite_notMem (k : String) (ws : List (String × List Peer))
    (hk : k ∉ ws.map Prod.fst) : lastWrite k ws = none := by
  induction ws with
  | nil => rfl
  | cons w ws ih =>
    have hw : ¬ w.1 = k := by
      intro hc; exact hk (by simp [hc])
    have hk' : k ∉ ws.map Prod.fst := by
      intro hc; exact hk (by simp [hc])
    simp [lastWrite, ih hk', hw]

theorem lastWrite_const (k : String) (vv : List Peer)
    (ws : List (String × List Peer)) (hv : ∀ w ∈ ws, w.2 = vv)
    (hk : k ∈ ws.map Prod.fst) : lastWrite k ws = some vv := by
  induction ws with
  | nil => simp at hk
  | cons w ws ih =>
    by_cases hmem : k ∈ ws.map Prod.fst
    · have := ih (fun u hu => hv u (by simp [hu])) hmem
      simp [lastWrite, this]
    · have hw : w.1 = k := by
        rw [List.map_cons] at hk
        rcases List.mem_cons.mp hk with h | h
        · exact h.symm
        · exact absurd h hmem
      have hlast : lastWrite k ws = none := lastWrite_notMem k ws hmem
      have hv0 : w.2 = vv := hv w (by simp)
      simp [lastWrite, hlast, hw, hv0]

theorem hashWrites_append (env : Env) (l1 l2 : List String) :
    ∀ s : Nat, hashWrites env s (l1 ++ l2)
      = hashWrites env s l1 ++ hashWrites env (s + scanBudget * l1.length) l2 := by
  induction l1 with
  | nil => intro s; simp [hashWrites]
  | cons h l1 ih =>
    intro s
    simp only [List.cons_append, hashWrites, List.append_eq,
      ih (s + scanBudget), List.length_cons]
    have harith : s + scanBudget + scanBudget * l1.length
        = s + scanBudget * (l1.length + 1) := by
      rw [Nat.mul_succ]; omega
    rw [harith]

theorem hashWrites_keys (env : Env) (l : List String) :
    ∀ s : Nat, (hashWrites env s l).map Prod.fst = l := by
  induction l with
  | nil => intro s; rfl
  | cons h l ih => intro s; simp [hashWrites, ih]

theorem hashWrites_quiet (env : Env) (hq : neverReplies env) (l : List String) :
    ∀ s : Nat, ∀ w ∈ hashWrites env s l, w.2 = [] := by
  induction l with
  | nil => intro s w hw; simp [hashWrites] at hw
  | cons h l ih =>
    intro s w hw
    rcases List.mem_cons.mp hw with h1 | h1
    · rw [h1]; exact windowPeers_quiet env hq s
    · exact ih (s + scanBudget) w h1

theorem hashOk_ok (h : String) (hok : hashOk h = true) :
    ∃ bs, hex_to_sha1_hash h = Except.ok bs := by
  unfold hashOk at hok
  cases hvv : hex_to_sha1_hash h with
  | ok bs => exact ⟨bs, rfl⟩
  | error e => rw [hvv] at hok; simp at hok

theorem scanLoop_noInterrupt (env : Env) (hI : env.interruptAt = none) :
    ∀ hashes : List String, (∀ h ∈ hashes, hashOk h = true) →
      ∀ st : ScanState,
        (scanLoop env hashes st).2 = Except.ok false
        ∧ (scanLoop env hashes st).1.results
            = (hashWrites env st.step hashes).foldl writeDoc st.results
        ∧ (scanLoop env hashes st).1.step = st.step + scanBudget * hashes.length
        ∧ queriesOf (scanLoop env hashes st).1.evs
            = queriesOf st.evs ++ hashes := by
  intro hashes
  induction hashes with
  | nil =>
    intro _ st
    exact ⟨rfl, rfl, by simp [scanLoop], by simp [scanLoop]⟩
  | cons h rest ih =>
    intro hval st
    obtain ⟨bs, hv⟩ := hashOk_ok h (hval h (by simp))
    have hint := pollLoop_noInterrupt env h hI scanBudget st.step []
      (st.evs ++ [Event.dhtGetPeersQuery h,
        Event.printMsg ("Scanning for hash: " ++ h ++ "...")])
    have hpeers := pollLoop_peers env h scanBudget st.step []
      (st.evs ++ [Event.dhtGetPeersQuery h,
        Event.printMsg ("Scanning for hash: " ++ h ++ "...")])
    have hq := pollLoop_queries env h scanBudget st.step []
      (st.evs ++ [Event.dhtGetPeersQuery h,
        Event.printMsg ("Scanning for hash: " ++ h ++ "...")])
    cases hpoll : pollLoop env h scanBudget st.step []
      (st.evs ++ [Event.dhtGetPeersQuery h,
        Event.printMsg ("Scanning for hash: " ++ h ++ "...")]) with
    | mk peers pstep pevs pintr =>
    rw [hpoll] at hint hpeers hq
    have hfalse : pintr = false := hint.1
    have hstep : pstep = st.step + scanBudget := hint.2
    subst hfalse
    have hunfold : scanLoop env (h :: rest) st
        = scanLoop env rest
            { results := dictSet st.results h (DocVal.peerList peers),
              step := pstep,
              evs := pevs ++ [Event.printMsg ("Finished scanning for hash: "
                ++ h ++ ". Found " ++ toString peers.length ++ " peers.")] } := by
      simp only [scanLoop, hv, hpoll]
      simp
    rw [hunfold]
    obtain ⟨c1, c2, c3, c4⟩ := ih (fun u hu => hval u (by simp [hu])) _
    refine ⟨c1, ?_, ?_, ?_⟩
    · rw [c2]
      simp only [hashWrites, List.foldl_cons]
      have hwp : windowPeers env st.step = peers := by
        rw [windowPeers, ← hpeers]
      rw [hwp, hstep]
      rfl
    · rw [c3, hstep]
      simp only [List.length_cons, Nat.mul_succ]
      omega
    · rw [c4]
      have hq2 : queriesOf (pevs ++ [Event.printMsg ("Finished scanning for hash: "
          ++ h ++ ". Found " ++ toString peers.length ++ " peers.")])
          = queriesOf st.evs ++ [h] := by
        rw [queriesOf_append, hq, queriesOf_append]
        simp [queriesOf]
      rw [hq2, List.append_assoc]
      rfl

theorem scanLoop_interrupt (env : Env) (t : Nat) (hI : env.interruptAt = some t) :
    ∀ (hashes : List String) (i : Nat) (st : ScanState),
      (∀ h ∈ hashes, hashOk h = true) →
      i < hashes.length →
      st.step + scanBudget * i ≤ t →
      t < st.step + scanBudget * (i + 1) →
        (scanLoop env hashes st).2 = Except.ok true
        ∧ (scanLoop env hashes st).1.results
            = (hashWrites env st.step (hashes.take i)).foldl writeDoc st.results
        ∧ (scanLoop env hashes st).1.step = t
        ∧ queriesOf (scanLoop env hashes st).1.evs
            = queriesOf st.evs ++ hashes.take (i + 1) := by
  intro hashes
  induction hashes with
  | nil =>
    intro i st _ hi
    simp at hi
  | cons h rest ih =>
    intro i st hval hi hlo hhi
    obtain ⟨bs, hv⟩ := hashOk_ok h (hval h (by simp))
    cases i with
    | zero =>
      have hlo' : st.step ≤ t := by omega
      have hhi' : t < st.step + scanBudget := by
        simp only [Nat.mul_succ, Nat.mul_zero] at hhi
        omega
      have hhit := pollLoop_hit env h t hI scanBudget st.step hlo' hhi' []
        (st.evs ++ [Event.dhtGetPeersQuery h,
          Event.printMsg ("Scanning for hash: " ++ h ++ "...")])
      have hqq := pollLoop_queries env h scanBudget st.step []
        (st.evs ++ [Event.dhtGetPeersQuery h,
          Event.printMsg ("Scanning for hash: " ++ h ++ "...")])
      cases hpoll : pollLoop env h scanBudget st.step []
        (st.evs ++ [Event.dhtGetPeersQuery h,
          Event.printMsg ("Scanning for hash: " ++ h ++ "...")]) with
      | mk peers pstep pevs pintr =>
      rw [hpoll] at hhit hqq
      have htrue : pintr = true := hhit.1
      have hstep : pstep = t := hhit.2
      subst htrue
      have hunfold : scanLoop env (h :: rest) st
          = ({ results := st.results, step := pstep,
               evs := pevs ++ [Event.printMsg "Scan stopped."] },
             Except.ok true) := by
        simp only [scanLoop, hv, hpoll]
        simp
      rw [hunfold]
      refine ⟨rfl, rfl, hstep, ?_⟩
      rw [queriesOf_append, hqq, queriesOf_append]
      simp [queriesOf, List.take]
    | succ i =>
      have hle : st.step + scanBudget ≤ t := by
        simp only [Nat.mul_succ] at hlo
        have : scanBudget * i ≥ 0 := Nat.zero_le _
        omega
      have hbef := pollLoop_before env h t hI scanBudget st.step hle []
        (st.evs ++ [Event.dhtGetPeersQuery h,
          Event.printMsg ("Scanning for hash: " ++ h ++ "...")])
      have hpeers := pollLoop_peers env h scanBudget st.step []
        (st.evs ++ [Event.dhtGetPeersQuery h,
          Event.printMsg ("Scanning for hash: " ++ h ++ "...")])
      have hqq := pollLoop_queries env h scanBudget st.step []
        (st.evs ++ [Event.dhtGetPeersQuery h,
          Event.printMsg ("Scanning for hash: " ++ h ++ "...")])
      cases hpoll : pollLoop env h scanBudget st.step []
        (st.evs ++ [Event.dhtGetPeersQuery h,
          Event.printMsg ("Scanning for hash: " ++ h ++ "...")]) with
      | mk peers pstep pevs pintr =>
      rw [hpoll] at hbef hpeers hqq
      have hfalse : pintr = false := hbef.1
      have hstep : pstep = st.step + scanBudget := hbef.2
      subst hfalse
      have hunfold : scanLoop env (h :: rest) st
          = scanLoop env rest
              { results := dictSet st.results h (DocVal.peerList peers),
                step := pstep,
                evs := pevs ++ [Event.printMsg ("Finished scanning for hash: "
                  ++ h ++ ". Found " ++ toString peers.length ++ " peers.")] } := by
        simp only [scanLoop, hv, hpoll]
        simp
      rw [hunfold]
      have hlo2 : pstep + scanBudget * i ≤ t := by
        rw [hstep]
        simp only [Nat.mul_succ] at hlo
        omega
      have hhi2 : t < pstep + scanBudget * (i + 1) := by
        rw [hstep]
        simp only [Nat.mul_succ] at hhi ⊢
        omega
      obtain ⟨c1, c2, c3, c4⟩ := ih i
        { results := dictSet st.results h (DocVal.peerList peers),
          step := pstep,
          evs := pevs ++ [Event.printMsg ("Finished scanning for hash: "
            ++ h ++ ". Found " ++ toString peers.length ++ " peers.")] }
        (fun u hu => hval u (by simp [hu])) (by simpa using hi) hlo2 hhi2
      refine ⟨c1, ?_, c3, ?_⟩
      · rw [c2]
        simp only [List.take_succ_cons, hashWrites, List.foldl_cons]
        have hwp : windowPeers env st.step = peers := by
          rw [windowPeers, ← hpeers]
        rw [hwp, hstep]
        rfl
      · rw [c4]
        have hq2 : queriesOf (pevs ++ [Event.printMsg ("Finished scanning for hash: "
            ++ h ++ ". Found " ++ toString peers.length ++ " peers.")])
            = queriesOf st.evs ++ [h] := by
          rw [queriesOf_append, hqq, queriesOf_append]
          simp [queriesOf]
        rw [hq2, List.append_assoc]
        rfl

theorem pollLoop_notInterrupted_step (env : Env) (h : String) :
    ∀ (f s : Nat) (p : List Peer) (e : List Event),
      (pollLoop env h f s p e).interrupted = false →
      (pollLoop env h f s p e).step = s + f := by
  intro f
  induction f with
  | zero => intro s p e _; rfl
  | succ n ih =>
    intro s p e hni
    by_cases hs : env.interruptAt = some s
    · rw [show pollLoop env h (n + 1) s p e
          = ⟨p, s, e ++ [Event.keyboardInterrupt], true⟩ by
        simp [pollLoop, hs]] at hni
      simp at hni
    · simp only [pollLoop, hs, if_neg, not_false_iff] at hni ⊢
      rw [ih (s + 1) _ _ hni]
      omega

theorem hashWrites_vals_nodup (env : Env) (l : List String) :
    ∀ s : Nat, ∀ w ∈ hashWrites env s l, w.2.Nodup := by
  induction l with
  | nil => intro s w hw; simp [hashWrites] at hw
  | cons h l ih =>
    intro s w hw
    rcases List.mem_cons.mp hw with h1 | h1
    · rw [h1]; exact windowPeers_nodup env s
    · exact ih (s + scanBudget) w h1

theorem lastWrite_mem (k : String) (ws : List (String × List Peer))
    (v : List Peer) (hl : lastWrite k ws = some v) : (k, v) ∈ ws := by
  induction ws with
  | nil => simp [lastWrite] at hl
  | cons w ws ih =>
    simp only [lastWrite] at hl
    cases hlast : lastWrite k ws with
    | some v' =>
      rw [hlast] at hl
      simp at hl
      subst hl
      exact List.mem_cons.mpr (Or.inr (ih hlast))
    | none =>
      rw [hlast] at hl
      by_cases hw : w.1 = k
      · rw [if_pos hw] at hl
        simp at hl
        have : w = (k, v) := by
          cases w; simp_all
        exact List.mem_cons.mpr (Or.inl this.symm)
      · rw [if_neg hw] at hl
        simp at hl

theorem foldWrites_preserves (ws : List (String × List Peer))
    (r : List (String × DocVal)) (k : String) (v : DocVal)
    (hl : lookupDoc r k = some v) :
    ∃ v', lookupDoc (ws.foldl writeDoc r) k = some v' := by
  rw [lookup_foldWrites]
  cases hlast : lastWrite k ws with
  | some u => exact ⟨DocVal.peerList u, rfl⟩
  | none => exact ⟨v, hl⟩

theorem foldWrites_nodup_vals (ws : List (String × List Peer))
    (r : List (String × DocVal))
    (hr : ∀ k ps, lookupDoc r k = some (DocVal.peerList ps) → ps.Nodup)
    (hw : ∀ w ∈ ws, w.2.Nodup) :
    ∀ k ps, lookupDoc (ws.foldl writeDoc r) k = some (DocVal.peerList ps) →
      ps.Nodup := by
  intro k ps hl
  rw [lookup_foldWrites] at hl
  cases hlast : lastWrite k ws with
  | some u =>
    rw [hlast] at hl
    simp at hl
    rw [← hl]
    exact hw (k, u) (lastWrite_mem k ws u hlast)
  | none =>
    rw [hlast] at hl
    exact hr k ps hl

theorem foldWrites_other (ws : List (String × List Peer))
    (r : List (String × DocVal)) (k : String)
    (hk : k ∉ ws.map Prod.fst) :
    lookupDoc (ws.foldl writeDoc r) k = lookupDoc r k := by
  rw [lookup_foldWrites, lastWrite_notMem k ws hk]

theorem foldWrites_keysNodup (ws : List (String × List Peer)) :
    ∀ r : List (String × DocVal), (keysOf r).Nodup →
      (keysOf (ws.foldl writeDoc r)).Nodup := by
  induction ws with
  | nil => intro r hr; exact hr
  | cons w ws ih =>
    intro r hr
    simp only [List.foldl_cons]
    exact ih _ (keysNodup_dictSet r w.1 (DocVal.peerList w.2) hr)

/-- General shape of any run of the per-hash loop: some prefix of valid
hashes completes and is written (as the windows of successive 30-step
slots), at most one further valid hash was queried but not written
(the one interrupted mid-window), and the get_peers queries issued are
exactly those hashes. -/
theorem scanLoop_general (env : Env) :
    ∀ (hashes : List String) (st : ScanState),
      ∃ (done extra : List String),
        (scanLoop env hashes st).1.results
            = (hashWrites env st.step done).foldl writeDoc st.results
        ∧ queriesOf (scanLoop env hashes st).1.evs
            = queriesOf st.evs ++ (done ++ extra)
        ∧ (∀ u ∈ done ++ extra, hashOk u = true)
        ∧ extra.length ≤ 1 := by
  intro hashes
  induction hashes with
  | nil =>
    intro st
    exact ⟨[], [], by simp [scanLoop, hashWrites], by simp [scanLoop], by simp,
      by simp⟩
  | cons h rest ih =>
    intro st
    cases hv : hex_to_sha1_hash h with
    | error e =>
      refine ⟨[], [], ?_, ?_, by simp, by simp⟩
      · simp [scanLoop, hv, hashWrites]
      · simp [scanLoop, hv, queriesOf_append, queriesOf]
    | ok bs =>
      have hpeers := pollLoop_peers env h scanBudget st.step []
        (st.evs ++ [Event.dhtGetPeersQuery h,
          Event.printMsg ("Scanning for hash: " ++ h ++ "...")])
      have hqq := pollLoop_queries env h scanBudget st.step []
        (st.evs ++ [Event.dhtGetPeersQuery h,
          Event.printMsg ("Scanning for hash: " ++ h ++ "...")])
      have hnis := pollLoop_notInterrupted_step env h scanBudget st.step []
        (st.evs ++ [Event.dhtGetPeersQuery h,
          Event.printMsg ("Scanning for hash: " ++ h ++ "...")])
      have hhok : hashOk h = true := by unfold hashOk; rw [hv]
      cases hpoll : pollLoop env h scanBudget st.step []
        (st.evs ++ [Event.dhtGetPeersQuery h,
          Event.printMsg ("Scanning for hash: " ++ h ++ "...")]) with
      | mk peers pstep pevs pintr =>
      rw [hpoll] at hpeers hqq hnis
      cases pintr with
      | true =>
        refine ⟨[], [h], ?_, ?_, ?_, by simp⟩
        · simp [scanLoop, hv, hpoll, hashWrites]
        · have : scanLoop env (h :: rest) st
              = ({ results := st.results, step := pstep,
                   evs := pevs ++ [Event.printMsg "Scan stopped."] },
                 Except.ok true) := by
            simp [scanLoop, hv, hpoll]
          rw [this]
          simp only []
          rw [queriesOf_append, hqq, queriesOf_append]
          simp [queriesOf]
        · intro u hu
          simp at hu
          rw [hu]
          exact hhok
      | false =>
        have hstep : pstep = st.step + scanBudget := hnis rfl
        have hunfold : scanLoop env (h :: rest) st
            = scanLoop env rest
                { results := dictSet st.results h (DocVal.peerList peers),
                  step := pstep,
                  evs := pevs ++ [Event.printMsg ("Finished scanning for hash: "
                    ++ h ++ ". Found " ++ toString peers.length ++ " peers.")] } := by
          simp only [scanLoop, hv, hpoll]
          simp
        rw [hunfold]
        obtain ⟨done, extra, d1, d2, d3, d4⟩ := ih
          { results := dictSet st.results h (DocVal.peerList peers),
            step := pstep,
            evs := pevs ++ [Event.printMsg ("Finished scanning for hash: "
              ++ h ++ ". Found " ++ toString peers.length ++ " peers.")] }
        refine ⟨h :: done, extra, ?_, ?_, ?_, d4⟩
        · rw [d1]
          simp only [hashWrites, List.foldl_cons]
          have hwp : windowPeers env st.step = peers := by
            rw [windowPeers, ← hpeers]
          rw [hwp, hstep]
          rfl
        · rw [d2]
          simp only []
          have hq2 : queriesOf (pevs ++ [Event.printMsg ("Finished scanning for hash: "
              ++ h ++ ". Found " ++ toString peers.length ++ " peers.")])
              = queriesOf st.evs ++ [h] := by
            rw [queriesOf_append, hqq, queriesOf_append]
            simp [queriesOf]
          rw [hq2, List.append_assoc]
          rfl
        · intro u hu
          simp only [List.cons_append, List.mem_cons] at hu
          rcases hu with h1 | h1
          · rw [h1]; exact hhok
          · exact d3 u h1

/-- The result dictionary as initialized at line 33. -/
def initialDoc (ts : String) : List (String × DocVal) :=
  [("date_crawling", DocVal.tsStr ts)]

/-- The events of lines 25-35, before the per-hash loop. -/
def initialEvs : List Event :=
  [Event.sessionSetup,
   Event.addRouter "router.bittorrent.com" 6881,
   Event.addRouter "dht.transmissionbt.com" 6881,
   Event.addRouter "router.utorrent.com" 6881,
   Event.printMsg "Waiting for DHT to load...",
   Event.sleepSeconds 10,
   Event.printMsg "Starting DHT scan..."]

theorem scan_eq_scanLoop (env : Env) (ts : String) (hashes : List String) :
    scan_dht_for_info_hashes env ts hashes
      = match scanLoop env hashes ⟨initialDoc ts, 0, initialEvs⟩ with
        | (st, Except.error e) => (st.evs, st.step, Except.error e)
        | (st, Except.ok _) => (st.evs, st.step, Except.ok st.results) := rfl

theorem queriesOf_initialEvs : queriesOf initialEvs = [] := rfl

theorem scan_noInterrupt (env : Env) (hI : env.interruptAt = none)
    (ts : String) (hashes : List String)
    (hval : ∀ h ∈ hashes, hashOk h = true) :
    (scan_dht_for_info_hashes env ts hashes).2.2
        = Except.ok ((hashWrites env 0 hashes).foldl writeDoc (initialDoc ts))
      ∧ (scan_dht_for_info_hashes env ts hashes).2.1
        = scanBudget * hashes.length
      ∧ queriesOf (scan_dht_for_info_hashes env ts hashes).1 = hashes := by
  obtain ⟨c1, c2, c3, c4⟩ :=
    scanLoop_noInterrupt env hI hashes hval ⟨initialDoc ts, 0, initialEvs⟩
  rw [scan_eq_scanLoop]
  cases hsl : scanLoop env hashes ⟨initialDoc ts, 0, initialEvs⟩ with
  | mk st' ex =>
  rw [hsl] at c1 c2 c3 c4
  simp only [] at c1
  subst c1
  simp only []
  refine ⟨?_, ?_, ?_⟩
  · rw [c2]
  · rw [c3]; simp
  · rw [c4, queriesOf_initialEvs]; simp

theorem scan_interrupt (env : Env) (t : Nat) (hI : env.interruptAt = some t)
    (ts : String) (hashes : List String) (i : Nat)
    (hval : ∀ h ∈ hashes, hashOk h = true)
    (hi : i < hashes.length)
    (hlo : scanBudget * i ≤ t) (hhi : t < scanBudget * (i + 1)) :
    (scan_dht_for_info_hashes env ts hashes).2.2
        = Except.ok ((hashWrites env 0 (hashes.take i)).foldl writeDoc
            (initialDoc ts))
      ∧ (scan_dht_for_info_hashes env ts hashes).2.1 = t
      ∧ queriesOf (scan_dht_for_info_hashes env ts hashes).1
        = hashes.take (i + 1) := by
  obtain ⟨c1, c2, c3, c4⟩ :=
    scanLoop_interrupt env t hI hashes i ⟨initialDoc ts, 0, initialEvs⟩
      hval hi (by simpa using hlo) (by simpa using hhi)
  rw [scan_eq_scanLoop]
  cases hsl : scanLoop env hashes ⟨initialDoc ts, 0, initialEvs⟩ with
  | mk st' ex =>
  rw [hsl] at c1 c2 c3 c4
  simp only [] at c1
  subst c1
  simp only []
  refine ⟨?_, c3, ?_⟩
  · rw [c2]
  · rw [c4, queriesOf_initialEvs]; simp

theorem scan_general (env : Env) (ts : String) (hashes : List String) :
    ∃ (done extra : List String),
      (∀ doc, (scan_dht_for_info_hashes env ts hashes).2.2 = Except.ok doc →
        doc = (hashWrites env 0 done).foldl writeDoc (initialDoc ts))
      ∧ queriesOf (scan_dht_for_info_hashes env ts hashes).1 = done ++ extra
      ∧ (∀ u ∈ done ++ extra, hashOk u = true) := by
  obtain ⟨done, extra, d1, d2, d3, _⟩ :=
    scanLoop_general env hashes ⟨initialDoc ts, 0, initialEvs⟩
  refine ⟨done, extra, ?_, ?_, d3⟩
  · intro doc hdoc
    rw [scan_eq_scanLoop] at hdoc
    revert hdoc
    cases hsl : scanLoop env hashes ⟨initialDoc ts, 0, initialEvs⟩ with
    | mk st' ex =>
    rw [hsl] at d1
    cases ex with
    | error e => intro hdoc; simp at hdoc
    | ok b =>
      intro hdoc
      simp only [] at hdoc
      injection hdoc with hdoc
      rw [← hdoc, d1]
  · rw [scan_eq_scanLoop]
    cases hsl : scanLoop env hashes ⟨initialDoc ts, 0, initialEvs⟩ with
    | mk st' ex =>
    rw [hsl] at d2
    rw [queriesOf_initialEvs] at d2
    cases ex with
    | error e => simpa using d2
    | ok b => simpa using d2

theorem foldWrites_fresh (ws : List (String × List Peer)) :
    ∀ r : List (String × DocVal), (ws.map Prod.fst).Nodup →
      (∀ k ∈ ws.map Prod.fst, k ∉ keysOf r) →
      ws.foldl writeDoc r
        = r ++ ws.map (fun w => (w.1, DocVal.peerList w.2)) := by
  induction ws with
  | nil => intro r _ _; simp
  | cons w ws ih =>
    intro r hnd hdis
    simp only [List.foldl_cons]
    have hw : writeDoc r w = r ++ [(w.1, DocVal.peerList w.2)] := by
      rw [writeDoc, dictSet_fresh]
      exact hdis w.1 (by simp)
    rw [hw]
    have hnd' : (ws.map Prod.fst).Nodup := by
      rw [List.map_cons, List.nodup_cons] at hnd
      exact hnd.2
    have hhead : w.1 ∉ ws.map Prod.fst := by
      rw [List.map_cons, List.nodup_cons] at hnd
      exact hnd.1
    have hdis' : ∀ k ∈ ws.map Prod.fst,
        k ∉ keysOf (r ++ [(w.1, DocVal.peerList w.2)]) := by
      intro k hk
      have hk1 : k ∉ keysOf r := hdis k (by simp [hk])
      have hk2 : ¬ k = w.1 := fun hc => hhead (hc ▸ hk)
      intro hc
      rw [keysOf, List.map_append] at hc
      rcases List.mem_append.mp hc with h1 | h1
      · exact hk1 h1
      · simp at h1
        exact hk2 h1
    rw [ih _ hnd' hdis']
    simp

theorem lowHex_facts : ∀ c ∈ lowHexChars,
    (hexDigit? c).isSome = true
    ∧ (hexDigit? c).getD 0 < 16
    ∧ hexChar ((hexDigit? c).getD 0) = c := by decide

theorem encodeByte_split (v1 v2 : Nat) (_h1 : v1 < 16) (h2 : v2 < 16) :
    encodeByte (16 * v1 + v2) = [hexChar v1, hexChar v2] := by
  have hd : (16 * v1 + v2) / 16 = v1 := by
    rw [Nat.mul_add_div (by omega)]
    omega
  have hm : (16 * v1 + v2) % 16 = v2 := by
    rw [Nat.mul_add_mod]
    exact Nat.mod_eq_of_lt h2
  rw [encodeByte, hd, hm]

theorem encodePairs_cons (b : Nat) (bs : List Nat) :
    encodePairs (b :: bs) = encodeByte b ++ encodePairs bs := rfl

theorem encodePairs_length (bs : List Nat) :
    (encodePairs bs).length = 2 * bs.length := by
  induction bs with
  | nil => rfl
  | cons b bs ih =>
    rw [encodePairs_cons, List.length_append, ih]
    simp [encodeByte]
    omega

theorem fromhex_encode : ∀ (n : Nat) (l : List Char), l.length ≤ n →
    (∀ c ∈ l, c ∈ lowHexChars) → l.length % 2 = 0 →
    ∃ bs, fromhexAux l = Except.ok bs ∧ encodePairs bs = l := by
  intro n
  induction n with
  | zero =>
    intro l hlen _ _
    have : l = [] := List.eq_nil_of_length_eq_zero (by omega)
    subst this
    exact ⟨[], rfl, rfl⟩
  | succ n ih =>
    intro l hlen hchars hpar
    match l with
    | [] => exact ⟨[], rfl, rfl⟩
    | [c] => simp at hpar
    | c1 :: c2 :: rest =>
      obtain ⟨hs1, hlt1, hc1⟩ := lowHex_facts c1 (hchars c1 (by simp))
      obtain ⟨hs2, hlt2, hc2⟩ := lowHex_facts c2 (hchars c2 (by simp))
      obtain ⟨v1, hv1⟩ := Option.isSome_iff_exists.mp hs1
      obtain ⟨v2, hv2⟩ := Option.isSome_iff_exists.mp hs2
      rw [hv1] at hlt1 hc1
      rw [hv2] at hlt2 hc2
      simp only [Option.getD_some] at hlt1 hc1 hlt2 hc2
      have hrest : rest.length ≤ n := by
        simp only [List.length_cons] at hlen
        omega
      have hrestpar : rest.length % 2 = 0 := by
        simp only [List.length_cons] at hpar
        omega
      obtain ⟨bs, hbs, henc⟩ := ih rest hrest
        (fun c hc => hchars c (by simp [hc])) hrestpar
      refine ⟨(16 * v1 + v2) :: bs, ?_, ?_⟩
      · simp only [fromhexAux, hv1, hv2, hbs]
      · rw [encodePairs_cons, encodeByte_split v1 v2 hlt1 hlt2, hc1, hc2, henc]
        rfl

theorem string_mk_data (s : String) : String.mk s.data = s := rfl

/-- Round trip for lowercase hex strings of length 40: decoding to the
20-byte hash and re-encoding gives back the string. -/
theorem hex_roundtrip_lower (s : String) (hlen : s.data.length = 40)
    (hchars : ∀ c ∈ s.data, c ∈ lowHexChars) :
    ∃ bs, hex_to_sha1_hash s = Except.ok bs ∧ toHexStr bs = s := by
  obtain ⟨bs, hbs, henc⟩ := fromhex_encode 40 s.data (by omega) hchars
    (by omega)
  have hblen : bs.length = 20 := by
    have := encodePairs_length bs
    rw [henc, hlen] at this
    omega
  refine ⟨bs, ?_, ?_⟩
  · rw [hex_to_sha1_hash, fromhex, hbs]
    simp [hblen]
  · rw [toHexStr, henc, string_mk_data]

theorem alertsFold_quiet (h : String) (as : List Alert)
    (hq : ∀ a ∈ as, a = Alert.otherAlert) :
    ∀ (p : List Peer) (e : List Event),
      as.foldl (addPeersFromAlert h) (p, e) = (p, e) := by
  induction as with
  | nil => intro p e; rfl
  | cons a as ih =>
    intro p e
    have ha : a = Alert.otherAlert := hq a (by simp)
    subst ha
    simp only [List.foldl_cons]
    exact ih (fun a hx => hq a (by simp [hx])) p e

theorem pollLoop_quiet (env : Env) (hq : neverReplies env)
    (hI : env.interruptAt = none) (h : String) :
    ∀ (f s : Nat) (p : List Peer) (e : List Event),
      pollLoop env h f s p e = ⟨p, s + f, e, false⟩ := by
  intro f
  induction f with
  | zero => intro s p e; rfl
  | succ n ih =>
    intro s p e
    have hs : ¬ env.interruptAt = some s := by rw [hI]; simp
    simp only [pollLoop, hs, if_neg, not_false_iff]
    rw [alertsFold_quiet h (env.popAlerts s) (hq s)]
    rw [ih (s + 1) p e]
    have : s + 1 + n = s + (n + 1) := by omega
    rw [this]

/-- The console banners of one quiet scan (no peers ever found): for each
hash, a query, the scanning banner, and the zero-peer completion
banner. -/
def bannerEvs : List String → List Event
  | [] => []
  | h :: rest =>
    Event.dhtGetPeersQuery h
      :: Event.printMsg ("Scanning for hash: " ++ h ++ "...")
      :: Event.printMsg ("Finished scanning for hash: " ++ h ++ ". Found "
          ++ toString (0 : Nat) ++ " peers.")
      :: bannerEvs rest

theorem scanLoop_quiet_evs (env : Env) (hq : neverReplies env)
    (hI : env.interruptAt = none) :
    ∀ (hashes : List String), (∀ h ∈ hashes, hashOk h = true) →
      ∀ st : ScanState,
        (scanLoop env hashes st).1.evs = st.evs ++ bannerEvs hashes := by
  intro hashes
  induction hashes with
  | nil => intro _ st; simp [scanLoop, bannerEvs]
  | cons h rest ih =>
    intro hval st
    obtain ⟨bs, hv⟩ := hashOk_ok h (hval h (by simp))
    have hpq := pollLoop_quiet env hq hI h scanBudget st.step []
      (st.evs ++ [Event.dhtGetPeersQuery h,
        Event.printMsg ("Scanning for hash: " ++ h ++ "...")])
    have hunfold : scanLoop env (h :: rest) st
        = scanLoop env rest
            { results := dictSet st.results h (DocVal.peerList []),
              step := st.step + scanBudget,
              evs := (st.evs ++ [Event.dhtGetPeersQuery h,
                  Event.printMsg ("Scanning for hash: " ++ h ++ "...")])
                ++ [Event.printMsg ("Finished scanning for hash: " ++ h
                  ++ ". Found " ++ toString (List.length ([] : List Peer))
                  ++ " peers.")] } := by
      simp only [scanLoop, hv, hpq]
      simp
    rw [hunfold, ih (fun u hu => hval u (by simp [hu]))]
    simp only [List.length_nil, bannerEvs]
    simp

theorem scan_quiet_evs (env : Env) (hq : neverReplies env)
    (hI : env.interruptAt = none) (ts : String) (hashes : List String)
    (hval : ∀ h ∈ hashes, hashOk h = true) :
    (scan_dht_for_info_hashes env ts hashes).1
      = initialEvs ++ bannerEvs hashes := by
  have hevs := scanLoop_quiet_evs env hq hI hashes hval
    ⟨initialDoc ts, 0, initialEvs⟩
  rw [scan_eq_scanLoop]
  cases hsl : scanLoop env hashes ⟨initialDoc ts, 0, initialEvs⟩ with
  | mk st' ex =>
  rw [hsl] at hevs
  cases ex with
  | error e => exact hevs
  | ok b => exact hevs

/-- Whether a list of characters occurs contiguously inside another. -/
def containsSub (pat : List Char) : List Char → Bool
  | [] => pat.isEmpty
  | c :: rest => pat.isPrefixOf (c :: rest) || containsSub pat rest

/-- Whether an event is a console message containing the word warning
(matching both capitalizations). -/
def eventWarns : Event → Bool
  | Event.printMsg s => containsSub "arning".data s.data
  | _ => false

/-- Hash fixture: the valid lowercase hex hash of forty a characters. -/
def hA : String := String.mk (List.replicate 40 'a')

/-- Hash fixture: the valid lowercase hex hash of forty b characters. -/
def hB : String := String.mk (List.replicate 40 'b')

/-- Hash fixture: forty uppercase A characters, also accepted by
bytes.fromhex. -/
def upperA40 : String := String.mk (List.replicate 40 'A')

/-- Environment fixture: no alert ever arrives and no interrupt occurs. -/
def envQuiet : Env := ⟨fun _ => [], none⟩

/-- Peer fixtures. -/
def p1 : Peer := ⟨"1.2.3.4", 6881⟩

/-- Second peer fixture. -/
def p2 : Peer := ⟨"5.6.7.8", 51413⟩

/-- Third peer fixture. -/
def p3 : Peer := ⟨"9.9.9.9", 80⟩

/-- Environment fixture: one reply in the first poll carrying p1 then p2. -/
def envOrder1 : Env :=
  ⟨fun t => if t = 0 then [Alert.dhtGetPeersReply [p1, p2]] else [], none⟩

/-- Environment fixture: one reply in the first poll carrying p2 then p1. -/
def envOrder2 : Env :=
  ⟨fun t => if t = 0 then [Alert.dhtGetPeersReply [p2, p1]] else [], none⟩

/-- Environment fixture: two replies with overlapping peer sets. -/
def envDup : Env :=
  ⟨fun t =>
    if t = 0 then [Alert.dhtGetPeersReply [p1, p2]]
    else if t = 1 then [Alert.dhtGetPeersReply [p2, p3]] else [], none⟩

/-- Environment fixture: a peer arrives in the first poll and a
KeyboardInterrupt strikes at poll step 5, inside the first hash's
window. -/
def envIntr : Env :=
  ⟨fun t => if t = 0 then [Alert.dhtGetPeersReply [p1]] else [], some 5⟩

/-- Environment fixture: a peer arrives in the first hash's window and a
KeyboardInterrupt strikes at poll step 35, inside the second hash's
window. -/
def envIntr2 : Env :=
  ⟨fun t => if t = 0 then [Alert.dhtGetPeersReply [p1]] else [], some 35⟩

/-- Environment fixture: p1 arrives in the first 30-step window and p2 in
the second. -/
def envC9 : Env :=
  ⟨fun t =>
    if t = 0 then [Alert.dhtGetPeersReply [p1]]
    else if t = 30 then [Alert.dhtGetPeersReply [p2]] else [], none⟩

/-- Main-environment fixture over the quiet scan environment. -/
def menvQuiet : MainEnv := ⟨fun _ => [], envQuiet, "T"⟩

/-- C1 (counterexample): on an invalid hash the scan does NOT fail before
any network activity: session setup and all three router contacts (and
the ten-second settle sleep) happen before the validation failure, and
the failure is a ValueError that aborts the whole scan rather than an
InvalidHashError for that entry alone. -/
theorem c1_counterexample :
    (scan_dht_for_info_hashes envQuiet "2024-01-01T00:00:00" ["zz"]).2.2
        = Except.error (ScanErr.invalidHash "zz" HashErr.nonHex)
    ∧ (scan_dht_for_info_hashes envQuiet "2024-01-01T00:00:00" ["zz"]).1
        = initialEvs ++ [Event.hashValidationError "zz"]
    ∧ Event.sessionSetup ∈ initialEvs
    ∧ Event.addRouter "router.bittorrent.com" 6881 ∈ initialEvs :=
  ⟨rfl, rfl, by decide, by decide⟩

/-- C1 (amended): a hash that fails validation is never the subject of a
dht_get_peers query — every queried hash validated successfully — though
session setup and router contact do precede the validation failure. -/
theorem c1_theorem (env : Env) (ts : String) (hashes : List String)
    (h : String)
    (hq : h ∈ queriesOf (scan_dht_for_info_hashes env ts hashes).1) :
    hashOk h = true := by
  obtain ⟨done, extra, _, d2, d3⟩ := scan_general env ts hashes
  rw [d2] at hq
  exact d3 h hq

/-- C1 (witness): the valid hash hA is queried in a concrete run, and is
indeed valid. -/
theorem c1_witness :
    hA ∈ queriesOf (scan_dht_for_info_hashes envQuiet "T" [hA]).1
    ∧ hashOk hA = true :=
  ⟨by decide, c1_theorem envQuiet "T" [hA] hA (by decide)⟩

/-- C2 (confirmed): with a transport that never replies and no interrupt,
the scan of valid hashes terminates after exactly 30 poll-seconds per
hash (the 30-second budget, within one 1-second sleep of the deadline)
and maps every requested hash to an empty peer list, not an error
entry. -/
theorem c2_theorem (env : Env) (ts : String) (hashes : List String)
    (hq : neverReplies env) (hI : env.interruptAt = none)
    (hval : ∀ h ∈ hashes, hashOk h = true) :
    ∃ doc, (scan_dht_for_info_hashes env ts hashes).2.2 = Except.ok doc
      ∧ (∀ h ∈ hashes, lookupDoc doc h = some (DocVal.peerList []))
      ∧ (scan_dht_for_info_hashes env ts hashes).2.1
          = scanBudget * hashes.length
      ∧ scanBudget ≤ scanBudget + pollSleepSeconds := by
  obtain ⟨c1, c2, _⟩ := scan_noInterrupt env hI ts hashes hval
  refine ⟨_, c1, ?_, c2, by omega⟩
  intro h hh
  rw [lookup_foldWrites]
  have hlw : lastWrite h (hashWrites env 0 hashes) = some [] := by
    apply lastWrite_const
    · exact hashWrites_quiet env hq hashes 0
    · rw [hashWrites_keys]; exact hh
  rw [hlw]

/-- C2 (witness): concrete quiet run over one hash. -/
theorem c2_witness :
    ∃ doc, (scan_dht_for_info_hashes envQuiet "T" [hA]).2.2 = Except.ok doc
      ∧ (∀ h ∈ [hA], lookupDoc doc h = some (DocVal.peerList []))
      ∧ (scan_dht_for_info_hashes envQuiet "T" [hA]).2.1
          = scanBudget * [hA].length
      ∧ scanBudget ≤ scanBudget + pollSleepSeconds :=
  c2_theorem envQuiet "T" [hA]
    (by intro t a ha; simp [envQuiet] at ha) rfl (by decide)

/-- C3 (counterexample): two runs receiving the same peer SET for the
same hash, in different arrival orders, emit byte-for-byte different
JSON documents — the per-hash list order comes from iterating a Python
set, which is not determined by the set's contents — so the document is
not reproducible from the peer sets and the timestamp alone. -/
theorem c3_counterexample :
    List.Perm (windowPeers envOrder1 0) (windowPeers envOrder2 0)
    ∧ (scan_dht_for_info_hashes envOrder1 "T" [hA]).2.2
        = Except.ok [("date_crawling", DocVal.tsStr "T"),
            (hA, DocVal.peerList [p1, p2])]
    ∧ (scan_dht_for_info_hashes envOrder2 "T" [hA]).2.2
        = Except.ok [("date_crawling", DocVal.tsStr "T"),
            (hA, DocVal.peerList [p2, p1])]
    ∧ jsonDoc [("date_crawling", DocVal.tsStr "T"),
          (hA, DocVal.peerList [p1, p2])]
        ≠ jsonDoc [("date_crawling", DocVal.tsStr "T"),
            (hA, DocVal.peerList [p2, p1])] :=
  ⟨by decide, rfl, rfl, by decide⟩

/-- C3 (amended): for distinct valid hashes and no interrupt, the result
document is exactly the date_crawling timestamp followed by one key per
requested hash in input order, each carrying the peers of its scan
window — so the document (and hence its JSON bytes) is reproducible from
the timestamp and the per-hash peer SEQUENCES (arrival order included),
though not from the unordered peer sets. -/
theorem c3_theorem (env : Env) (ts : String) (hashes : List String)
    (hI : env.interruptAt = none) (hval : ∀ h ∈ hashes, hashOk h = true)
    (hnd : hashes.Nodup) :
    (scan_dht_for_info_hashes env ts hashes).2.2
      = Except.ok (("date_crawling", DocVal.tsStr ts)
          :: (hashWrites env 0 hashes).map (fun w => (w.1, DocVal.peerList w.2)))
    ∧ keysOf (("date_crawling", DocVal.tsStr ts)
          :: (hashWrites env 0 hashes).map (fun w => (w.1, DocVal.peerList w.2)))
        = "date_crawling" :: hashes := by
  obtain ⟨c1, _, _⟩ := scan_noInterrupt env hI ts hashes hval
  have hfresh : (hashWrites env 0 hashes).foldl writeDoc (initialDoc ts)
      = initialDoc ts
        ++ (hashWrites env 0 hashes).map (fun w => (w.1, DocVal.peerList w.2)) := by
    apply foldWrites_fresh
    · rw [hashWrites_keys]; exact hnd
    · rw [hashWrites_keys]
      intro k hk hc
      have hkval := hval k hk
      have hkd : k = "date_crawling" := by
        simpa [initialDoc, keysOf] using hc
      rw [hkd] at hkval
      exact absurd hkval (by decide)
  refine ⟨?_, ?_⟩
  · rw [c1, hfresh]
    rfl
  · rw [keysOf, List.map_cons, List.map_map]
    have hcomp : (hashWrites env 0 hashes).map
          (Prod.fst ∘ fun w => (w.1, DocVal.peerList w.2))
        = (hashWrites env 0 hashes).map Prod.fst := rfl
    rw [hcomp, hashWrites_keys]

/-- C3 (witness): the amended statement at a concrete run. -/
theorem c3_witness :
    (scan_dht_for_info_hashes envOrder1 "T" [hA]).2.2
      = Except.ok (("date_crawling", DocVal.tsStr "T")
          :: (hashWrites envOrder1 0 [hA]).map (fun w => (w.1, DocVal.peerList w.2)))
    ∧ keysOf (("date_crawling", DocVal.tsStr "T")
          :: (hashWrites envOrder1 0 [hA]).map (fun w => (w.1, DocVal.peerList w.2)))
        = "date_crawling" :: [hA] :=
  c3_theorem envOrder1 "T" [hA] rfl (by decide) (by decide)

/-- C4 (confirmed): any per-hash peer list in a returned result document
is free of duplicate (ip, port) pairs, whatever replies arrived — the
line 51-53 membership check deduplicates across overlapping replies. -/
theorem c4_theorem (env : Env) (ts : String) (hashes : List String)
    (doc : List (String × DocVal)) (k : String) (ps : List Peer)
    (hdoc : (scan_dht_for_info_hashes env ts hashes).2.2 = Except.ok doc)
    (hl : lookupDoc doc k = some (DocVal.peerList ps)) : ps.Nodup := by
  obtain ⟨done, extra, d1, _, _⟩ := scan_general env ts hashes
  have hdoc' := d1 doc hdoc
  subst hdoc'
  refine foldWrites_nodup_vals _ _ ?_ (hashWrites_vals_nodup env done 0) k ps hl
  intro k' ps' hl'
  by_cases hk : "date_crawling" = k'
  · simp [initialDoc, lookupDoc, hk] at hl'
  · simp [initialDoc, lookupDoc, hk] at hl'

/-- C4 (witness): two overlapping replies (p1,p2 then p2,p3) produce the
duplicate-free list p1,p2,p3. -/
theorem c4_witness :
    (scan_dht_for_info_hashes envDup "T" [hA]).2.2
        = Except.ok [("date_crawling", DocVal.tsStr "T"),
            (hA, DocVal.peerList [p1, p2, p3])]
    ∧ List.Nodup [p1, p2, p3] :=
  ⟨rfl, c4_theorem envDup "T" [hA]
      [("date_crawling", DocVal.tsStr "T"), (hA, DocVal.peerList [p1, p2, p3])]
      hA [p1, p2, p3] rfl (by decide)⟩

/-- C5 (counterexample): a KeyboardInterrupt during a hash's scan window
discards that hash's already-found peers: the trace shows peer p1 was
found for hA, yet the returned document has no entry for hA at all. -/
theorem c5_counterexample :
    Event.printFoundPeer p1 hA ∈ (scan_dht_for_info_hashes envIntr "T" [hA]).1
    ∧ (scan_dht_for_info_hashes envIntr "T" [hA]).2.2
        = Except.ok [("date_crawling", DocVal.tsStr "T")]
    ∧ lookupDoc [("date_crawling", DocVal.tsStr "T")] hA = none :=
  ⟨by decide, rfl, rfl⟩

/-- C5 (amended): an interrupt during hash number i's window stops the
scan: no further hash is queried (queries are exactly the first i+1
hashes) and the returned document holds the completed entries of the
first i hashes only — the interrupted hash's partial peers are
discarded. -/
theorem c5_theorem (env : Env) (t : Nat) (ts : String) (hashes : List String)
    (i : Nat) (hI : env.interruptAt = some t)
    (hval : ∀ h ∈ hashes, hashOk h = true) (hi : i < hashes.length)
    (hlo : scanBudget * i ≤ t) (hhi : t < scanBudget * (i + 1)) :
    (scan_dht_for_info_hashes env ts hashes).2.2
        = Except.ok ((hashWrites env 0 (hashes.take i)).foldl writeDoc
            (initialDoc ts))
      ∧ queriesOf (scan_dht_for_info_hashes env ts hashes).1
        = hashes.take (i + 1) := by
  obtain ⟨a, _, c⟩ := scan_interrupt env t hI ts hashes i hval hi hlo hhi
  exact ⟨a, c⟩

/-- C5 (witness): interrupted in the second hash's window, the scan keeps
the first hash's completed peers and queries only the two hashes. -/
theorem c5_witness :
    (scan_dht_for_info_hashes envIntr2 "T" [hA, hB]).2.2
        = Except.ok ((hashWrites envIntr2 0 ([hA, hB].take 1)).foldl writeDoc
            (initialDoc "T"))
      ∧ queriesOf (scan_dht_for_info_hashes envIntr2 "T" [hA, hB]).1
        = [hA, hB].take 2 :=
  c5_theorem envIntr2 35 "T" [hA, hB] 1 rfl (by decide) (by decide)
    (by decide) (by decide)

/-- C6 (counterexample): with no reachable node (no alert ever arrives),
the scan proceeds and returns an empty list for the hash, but emits NO
warning: the full trace is the fixed progress banners, none of which
contains the word warning. -/
theorem c6_counterexample :
    (scan_dht_for_info_hashes envQuiet "T" [hA]).2.2
        = Except.ok [("date_crawling", DocVal.tsStr "T"),
            (hA, DocVal.peerList [])]
    ∧ (scan_dht_for_info_hashes envQuiet "T" [hA]).1
        = initialEvs ++ bannerEvs [hA]
    ∧ (initialEvs ++ bannerEvs [hA]).all (fun e => !(eventWarns e)) = true :=
  ⟨rfl, rfl, by decide⟩

/-- C6 (amended): when no node ever replies after the fixed 10-second
settle sleep, the scan still completes non-fatally with an empty list
for every hash, but no warning is surfaced: the trace is exactly the
fixed progress banners, independent of reachability. -/
theorem c6_theorem (env : Env) (ts : String) (hashes : List String)
    (hq : neverReplies env) (hI : env.interruptAt = none)
    (hval : ∀ h ∈ hashes, hashOk h = true) :
    ∃ doc, (scan_dht_for_info_hashes env ts hashes).2.2 = Except.ok doc
      ∧ (∀ h ∈ hashes, lookupDoc doc h = some (DocVal.peerList []))
      ∧ (scan_dht_for_info_hashes env ts hashes).1
          = initialEvs ++ bannerEvs hashes := by
  obtain ⟨c1, _, _⟩ := scan_noInterrupt env hI ts hashes hval
  refine ⟨_, c1, ?_, scan_quiet_evs env hq hI ts hashes hval⟩
  intro h hh
  rw [lookup_foldWrites]
  have hlw : lastWrite h (hashWrites env 0 hashes) = some [] := by
    apply lastWrite_const
    · exact hashWrites_quiet env hq hashes 0
    · rw [hashWrites_keys]; exact hh
  rw [hlw]

/-- C6 (witness): the amended statement at a concrete quiet run. -/
theorem c6_witness :
    ∃ doc, (scan_dht_for_info_hashes envQuiet "T" [hA]).2.2 = Except.ok doc
      ∧ (∀ h ∈ [hA], lookupDoc doc h = some (DocVal.peerList []))
      ∧ (scan_dht_for_info_hashes envQuiet "T" [hA]).1
          = initialEvs ++ bannerEvs [hA] :=
  c6_theorem envQuiet "T" [hA]
    (by intro t a ha; simp [envQuiet] at ha) rfl (by decide)

/-- C7 (counterexample): an invocation with a hash but NO --output flag
does not print an error or skip writing: argparse fills in the default
output.json and the program writes it and prints the confirmation. -/
theorem c7_counterexample :
    main menvQuiet ⟨some hA, none, none⟩
      = ([MainEvent.writeFile "output.json"
            (jsonDoc [("date_crawling", DocVal.tsStr "T"),
              (hA, DocVal.peerList [])]),
          MainEvent.printMsg "Results saved to output.json."],
         Except.ok ()) := rfl

/-- C7 (amended): no hash selected (both flags absent or empty) prints
the hash error and writes nothing; any invocation that does select a
hash list — via --hash or via --hash-file — with an explicitly EMPTY
--output prints the output error and writes nothing; otherwise (the flag
omitted defaults to output.json) every invocation whose scan succeeds
writes the JSON document and prints the confirmation. -/
theorem c7_theorem (menv : MainEnv) (a : Args) :
    (selectedHashes menv a = none →
      (main menv a).1 = [MainEvent.printMsg
        "Error: No hash or hash file provided! Use --hash <hash_str> or --hash-file <filepath>"])
    ∧ (∀ hs, selectedHashes menv a = some hs → parsedOutput a = "" →
      (main menv a).1 = [MainEvent.printMsg
        "Error: No output file provided! Use --output <file>.json"])
    ∧ (∀ hs doc, selectedHashes menv a = some hs → ¬ parsedOutput a = "" →
      (scan_dht_for_info_hashes menv.scanEnv menv.timestamp hs).2.2
          = Except.ok doc →
      (main menv a).1
        = [MainEvent.writeFile (parsedOutput a) (jsonDoc doc),
           MainEvent.printMsg ("Results saved to " ++ parsedOutput a ++ ".")]) := by
  refine ⟨?_, ?_, ?_⟩
  · intro h1
    simp [main, h1]
  · intro hs hh hout
    simp [main, hh, hout]
  · intro hs doc hh hout hscan
    cases hsc : scan_dht_for_info_hashes menv.scanEnv menv.timestamp hs with
    | mk evs rest =>
    obtain ⟨steps, ex⟩ := rest
    rw [hsc] at hscan
    simp only [] at hscan
    subst hscan
    simp [main, hh, hout, hsc]

/-- Main-environment fixture whose hash file holds the single line hA. -/
def menvFile : MainEnv := ⟨fun _ => [hA], envQuiet, "T"⟩

/-- C7 (witness): a --hash-file invocation with --output omitted selects
the file's hashes, and its successful scan writes the default
output.json and prints the confirmation; plus the no-hash branch at a
flagless invocation. -/
theorem c7_witness :
    (main menvFile ⟨none, some "hashes.txt", none⟩).1
      = [MainEvent.writeFile (parsedOutput ⟨none, some "hashes.txt", none⟩)
          (jsonDoc [("date_crawling", DocVal.tsStr "T"),
            (hA, DocVal.peerList [])]),
         MainEvent.printMsg ("Results saved to "
           ++ parsedOutput ⟨none, some "hashes.txt", none⟩ ++ ".")]
    ∧ (main menvQuiet ⟨none, none, none⟩).1
      = [MainEvent.printMsg
          "Error: No hash or hash file provided! Use --hash <hash_str> or --hash-file <filepath>"] :=
  ⟨(c7_theorem menvFile ⟨none, some "hashes.txt", none⟩).2.2 [hA]
      [("date_crawling", DocVal.tsStr "T"), (hA, DocVal.peerList [])]
      (by decide) (by decide) rfl,
   (c7_theorem menvQuiet ⟨none, none, none⟩).1 rfl⟩

/-- C8 (counterexample): the round trip fails on uppercase valid hex:
forty A characters decode to the same 20 bytes as forty a characters, and
re-encoding yields the lowercase string, not the original — so no
re-encoding can round-trip ALL valid 40-character hex strings. -/
theorem c8_counterexample :
    hex_to_sha1_hash upperA40 = Except.ok (List.replicate 20 170)
    ∧ toHexStr (List.replicate 20 170) = hA
    ∧ hA ≠ upperA40
    ∧ hex_to_sha1_hash upperA40 = hex_to_sha1_hash hA :=
  ⟨rfl, rfl, by decide, rfl⟩

/-- C8 (amended): for every LOWERCASE 40-character hex string, decoding
to the 20-byte hash succeeds and re-encoding the bytes to hex yields the
original string. -/
theorem c8_theorem (s : String) (hlen : s.data.length = 40)
    (hchars : ∀ c ∈ s.data, c ∈ lowHexChars) :
    ∃ bs, hex_to_sha1_hash s = Except.ok bs ∧ toHexStr bs = s :=
  hex_roundtrip_lower s hlen hchars

/-- C8 (witness): the round trip at the concrete hash hA. -/
theorem c8_witness :
    hA.data.length = 40
    ∧ ∃ bs, hex_to_sha1_hash hA = Except.ok bs ∧ toHexStr bs = hA :=
  ⟨by decide, c8_theorem hA (by decide) (by decide)⟩

/-- C9 (confirmed): when a hash occurs several times (pre ++ [h] ++ post
with h not in post, so the bracketed occurrence is the last), every
occurrence is queried and scanned for its full 30-step budget, the
result has duplicate-free keys (one key per distinct hash), and the key
holds exactly the peers of the LAST occurrence's scan window — earlier
occurrences' lists are overwritten. -/
theorem c9_theorem (env : Env) (ts : String) (pre post : List String)
    (h : String) (hI : env.interruptAt = none)
    (hval : ∀ u ∈ pre ++ [h] ++ post, hashOk u = true)
    (hpost : h ∉ post) :
    ∃ doc, (scan_dht_for_info_hashes env ts (pre ++ [h] ++ post)).2.2
        = Except.ok doc
      ∧ lookupDoc doc h
          = some (DocVal.peerList (windowPeers env (scanBudget * pre.length)))
      ∧ (keysOf doc).Nodup
      ∧ (scan_dht_for_info_hashes env ts (pre ++ [h] ++ post)).2.1
          = scanBudget * (pre ++ [h] ++ post).length
      ∧ queriesOf (scan_dht_for_info_hashes env ts (pre ++ [h] ++ post)).1
          = pre ++ [h] ++ post := by
  obtain ⟨c1, c2, c3⟩ := scan_noInterrupt env hI ts (pre ++ [h] ++ post) hval
  refine ⟨_, c1, ?_, ?_, c2, c3⟩
  · rw [lookup_foldWrites]
    have hlw : lastWrite h (hashWrites env 0 (pre ++ [h] ++ post))
        = some (windowPeers env (scanBudget * pre.length)) := by
      rw [List.append_assoc, hashWrites_append, lastWrite_append]
      have hcons : hashWrites env (0 + scanBudget * pre.length) ([h] ++ post)
          = (h, windowPeers env (0 + scanBudget * pre.length))
            :: hashWrites env (0 + scanBudget * pre.length + scanBudget) post := rfl
      rw [hcons]
      simp only [lastWrite]
      have hnone : lastWrite h
          (hashWrites env (0 + scanBudget * pre.length + scanBudget) post)
          = none := by
        apply lastWrite_notMem
        rw [hashWrites_keys]
        exact hpost
      rw [hnone]
      simp
    rw [hlw]
  · exact foldWrites_keysNodup _ _ (by simp [initialDoc, keysOf])

/-- C9 (witness): the hash scanned twice gets one key holding the second
window's peers (p2), not the first window's (p1). -/
theorem c9_witness :
    (∃ doc, (scan_dht_for_info_hashes envC9 "T" ([hA] ++ [hA] ++ [])).2.2
        = Except.ok doc
      ∧ lookupDoc doc hA
          = some (DocVal.peerList (windowPeers envC9 (scanBudget * [hA].length)))
      ∧ (keysOf doc).Nodup
      ∧ (scan_dht_for_info_hashes envC9 "T" ([hA] ++ [hA] ++ [])).2.1
          = scanBudget * ([hA] ++ [hA] ++ []).length
      ∧ queriesOf (scan_dht_for_info_hashes envC9 "T" ([hA] ++ [hA] ++ [])).1
          = [hA] ++ [hA] ++ [])
    ∧ windowPeers envC9 0 = [p1]
    ∧ windowPeers envC9 (scanBudget * [hA].length) = [p2] :=
  ⟨c9_theorem envC9 "T" [hA] [] hA rfl (by decide) (by decide), rfl, rfl⟩

/-- C10 (confirmed): the date_crawling key initialized at line 33 is
present mapping to the timestamp in every successfully returned
document, and an entry present in the running result dictionary is never
removed by any further scanning (including interruption) — entries are
only added or overwritten. -/
theorem c10_theorem :
    (∀ (env : Env) (hashes : List String) (st : ScanState) (h : String)
        (v : DocVal), lookupDoc st.results h = some v →
        ∃ v', lookupDoc (scanLoop env hashes st).1.results h = some v')
    ∧ ∀ (env : Env) (ts : String) (hashes : List String)
        (doc : List (String × DocVal)),
        (scan_dht_for_info_hashes env ts hashes).2.2 = Except.ok doc →
        lookupDoc doc "date_crawling" = some (DocVal.tsStr ts) := by
  constructor
  · intro env hashes st h v hl
    obtain ⟨done, extra, d1, _, _, _⟩ := scanLoop_general env hashes st
    rw [d1]
    exact foldWrites_preserves _ _ h v hl
  · intro env ts hashes doc hdoc
    obtain ⟨done, extra, d1, _, d3⟩ := scan_general env ts hashes
    have hdoc' := d1 doc hdoc
    subst hdoc'
    have hnm : "date_crawling" ∉ (hashWrites env 0 done).map Prod.fst := by
      rw [hashWrites_keys]
      intro hc
      have := d3 "date_crawling" (List.mem_append.mpr (Or.inl hc))
      exact absurd this (by decide)
    rw [foldWrites_other _ _ _ hnm]
    rfl

/-- C10 (witness): preservation of an existing entry across a scan and
the date key in a concrete returned document. -/
theorem c10_witness :
    (∃ v', lookupDoc (scanLoop envQuiet [hA]
        ⟨[("k", DocVal.tsStr "X")], 0, []⟩).1.results "k" = some v')
    ∧ lookupDoc [("date_crawling", DocVal.tsStr "T"), (hA, DocVal.peerList [])]
        "date_crawling" = some (DocVal.tsStr "T") :=
  ⟨c10_theorem.1 envQuiet [hA] ⟨[("k", DocVal.tsStr "X")], 0, []⟩ "k"
      (DocVal.tsStr "X") rfl,
   c10_theorem.2 envQuiet "T" [hA]
      [("date_crawling", DocVal.tsStr "T"), (hA, DocVal.peerList [])] rfl⟩

end TorrentFinder
